import Mathlib

/-!
Verification of the text-chunking core and file-ingestion collaborators of a
document-ingestion pipeline.  The program text is JavaScript/TypeScript; it is
shallowly embedded here with strings as `List Char` (JS code units), numeric
indices as `Int` (JS arithmetic on possibly-negative indices), and the two
`while` loops rendered as fuel-indexed recursions returning `Option` so that a
run that would not terminate is the value `none` for every fuel.
-/

set_option autoImplicit false

/-- Characters removed by JavaScript `String.prototype.trim` (WhiteSpace and
LineTerminator code points). -/
def jsWhitespaceChars : List Char :=
  ['\t', '\n', '\u000B', '\u000C', '\r', ' ',
   '\u00A0', '\u1680',
   '\u2000', '\u2001', '\u2002', '\u2003', '\u2004', '\u2005', '\u2006',
   '\u2007', '\u2008', '\u2009', '\u200A',
   '\u2028', '\u2029', '\u202F', '\u205F', '\u3000', '\uFEFF']

/-- Whether a character is whitespace for JS `trim`. -/
def jsWhitespace (c : Char) : Bool :=
  jsWhitespaceChars.contains c

/-- JS `s.trim()`: drop whitespace from both ends. -/
def jsTrim (l : List Char) : List Char :=
  ((l.dropWhile jsWhitespace).reverse.dropWhile jsWhitespace).reverse

/-- JS `s.substring(a, b)`: both arguments are clamped to `[0, length]` and
swapped when out of order; returns the code units in `[lo, hi)`. -/
def jsSubstring (text : List Char) (a b : Int) : List Char :=
  let n : Int := text.length
  let a1 := min (max a 0) n
  let b1 := min (max b 0) n
  let lo := min a1 b1
  let hi := max a1 b1
  (text.take hi.toNat).drop lo.toNat

/-- JS `s.lastIndexOf(pat)`: the largest index at which `pat` occurs in `s`
(as a contiguous sublist), or `-1` when it does not occur. -/
def jsLastIndexOf (s pat : List Char) : Int :=
  match ((List.range (s.length + 1)).filter
      (fun i => pat.isPrefixOf (s.drop i))).getLast? with
  | some i => (i : Int)
  | none => -1

/-- The `while` loop of `chunkText` (text-chunker.ts lines 25-41), fuel-indexed.
Each iteration takes `text.substring(startIndex, min(startIndex + chunkSize,
text.length))`, stops after the chunk that reaches the end of the text, and
otherwise advances the cursor by `chunkSize - overlap` (an `Int`: the step can
be zero or negative in the source, which then never terminates — `none`). -/
def chunkTextGo (text : List Char) (chunkSize overlap : Nat) :
    Nat → Int → Option (List (List Char))
  | 0, _ => none
  | fuel + 1, startIndex =>
    if startIndex < (text.length : Int) then
      let endIndex : Int := min (startIndex + (chunkSize : Int)) (text.length : Int)
      let chunk := jsSubstring text startIndex endIndex
      if endIndex = (text.length : Int) then some [chunk]
      else
        (chunkTextGo text chunkSize overlap fuel
            (startIndex + ((chunkSize : Int) - (overlap : Int)))).map
          (fun rest => chunk :: rest)
    else some []

/-- `chunkText` (text-chunker.ts lines 8-44).  Empty or whitespace-only text
yields `[]`; text no longer than `chunkSize` yields `[text]`; otherwise the
sliding-window loop runs.  Fuel `text.length + 1` bounds the iteration count of
every terminating run (the step is at least 1 whenever `overlap < chunkSize`),
so `none` means the source loop runs forever. -/
def chunkText (text : List Char) (chunkSize overlap : Nat) :
    Option (List (List Char)) :=
  if text = [] ∨ (jsTrim text).length = 0 then some []
  else if text.length ≤ chunkSize then some [text]
  else chunkTextGo text chunkSize overlap (text.length + 1) 0

/-- The boundary markers of `chunkTextSmart` (text-chunker.ts line 76), in
source order. -/
def sentenceEndings : List (List Char) :=
  [['.', ' '], ['.', '\n'], ['!', ' '], ['!', '\n'],
   ['?', ' '], ['?', '\n'], ['\n', '\n']]

/-- One step of the marker scan (text-chunker.ts lines 79-84): the candidate
boundary is replaced when the marker's last occurrence starts strictly past the
current boundary value (which is a previously selected occurrence's end). -/
def boundaryStep (searchText : List Char) (lastBoundary : Int)
    (ending : List Char) : Int :=
  let pos := jsLastIndexOf searchText ending
  if pos > lastBoundary then pos + (ending.length : Int) else lastBoundary

/-- The full marker scan over `sentenceEndings`, starting from `-1`. -/
def lastBoundaryOf (searchText : List Char) : Int :=
  sentenceEndings.foldl (boundaryStep searchText) (-1)

/-- The naive chunk end `min(startIndex + chunkSize, text.length)`
(text-chunker.ts line 67). -/
def naiveEnd (text : List Char) (chunkSize : Nat) (startIndex : Int) : Int :=
  min (startIndex + (chunkSize : Int)) (text.length : Int)

/-- Start of the boundary-search window, `endIndex - Math.floor(chunkSize *
0.2)` (text-chunker.ts line 72).  `Math.floor(chunkSize * 0.2)` equals
`chunkSize / 5` in integers: the double product `chunkSize * 0.2` differs from
the rational `chunkSize / 5` by less than one ulp and never crosses an integer
for any representable list length. -/
def searchStartOf (text : List Char) (chunkSize : Nat) (startIndex : Int) : Int :=
  naiveEnd text chunkSize startIndex - ((chunkSize / 5 : Nat) : Int)

/-- The boundary-search window `text.substring(searchStart, endIndex)`
(text-chunker.ts line 73). -/
def searchWindow (text : List Char) (chunkSize : Nat) (startIndex : Int) :
    List Char :=
  jsSubstring text (searchStartOf text chunkSize startIndex)
    (naiveEnd text chunkSize startIndex)

/-- The adjusted chunk end of one `chunkTextSmart` iteration (text-chunker.ts
lines 67-90): when the naive end is not the end of the text and the marker scan
found a boundary (`lastBoundary > 0`), the end moves to `searchStart +
lastBoundary`; otherwise the naive end is kept. -/
def smartEnd (text : List Char) (chunkSize : Nat) (startIndex : Int) : Int :=
  let endIndex := naiveEnd text chunkSize startIndex
  if endIndex < (text.length : Int) then
    let lastBoundary := lastBoundaryOf (searchWindow text chunkSize startIndex)
    if lastBoundary > 0 then
      searchStartOf text chunkSize startIndex + lastBoundary
    else endIndex
  else endIndex

/-- The `while` loop of `chunkTextSmart` (text-chunker.ts lines 66-102),
fuel-indexed.  Each iteration trims the extracted chunk, pushes it only when
non-empty, stops when the (adjusted) end reached the end of the text, and
otherwise continues from `endIndex - overlap`. -/
def chunkTextSmartGo (text : List Char) (chunkSize overlap : Nat) :
    Nat → Int → Option (List (List Char))
  | 0, _ => none
  | fuel + 1, startIndex =>
    if startIndex < (text.length : Int) then
      let endIndex := smartEnd text chunkSize startIndex
      let chunk := jsTrim (jsSubstring text startIndex endIndex)
      let rest :=
        if endIndex = (text.length : Int) then some []
        else chunkTextSmartGo text chunkSize overlap fuel
          (endIndex - (overlap : Int))
      rest.map (fun r => if chunk = [] then r else chunk :: r)
    else some []

/-- `chunkTextSmart` (text-chunker.ts lines 50-105): same short-circuits as
`chunkText` (note the single-chunk case returns the text untrimmed), then the
boundary-aware loop. -/
def chunkTextSmart (text : List Char) (chunkSize overlap : Nat) :
    Option (List (List Char)) :=
  if text = [] ∨ (jsTrim text).length = 0 then some []
  else if text.length ≤ chunkSize then some [text]
  else chunkTextSmartGo text chunkSize overlap (text.length + 1) 0

/-- Boundary selection as the specification words it: among the last
occurrences of all markers found in the window, take the occurrence end that is
furthest to the right.  Used to compare the source's selection rule against the
specified one. -/
def rightmostCandidates (searchText : List Char) : List Int :=
  sentenceEndings.filterMap (fun ending =>
    let pos := jsLastIndexOf searchText ending
    if 0 ≤ pos then some (pos + (ending.length : Int)) else none)

/-- Chunk-end selection following the specification's words (rightmost last
occurrence among all markers), to be compared with `smartEnd`. -/
def smartEndRightmost (text : List Char) (chunkSize : Nat)
    (startIndex : Int) : Int :=
  let endIndex := naiveEnd text chunkSize startIndex
  if endIndex < (text.length : Int) then
    match (rightmostCandidates (searchWindow text chunkSize startIndex)).max? with
    | some m => searchStartOf text chunkSize startIndex + m
    | none => endIndex
  else endIndex

/-- Input for comparing the two selection rules: a 25-character text whose
first search window (positions 16-20 for `chunkSize = 20`) is `"a.\n\n"`. -/
def boundaryCexText : List Char :=
  ("TTTTTTTTTTTTTTTTa." ++ "\n\n" ++ "TTTTT").toList

/-- Reconstruction of a text from overlapping fixed-width chunks: keep the
first chunk whole and drop the first `overlap` characters of every later
chunk. -/
def chunkRecon (overlap : Nat) : List (List Char) → List Char
  | [] => []
  | c :: cks => c ++ (cks.map (List.drop overlap)).flatten

/-- `getFileExtension` (file-processor.ts lines 33-35):
`filename.split('.').pop()?.toLowerCase() || ''`.  `Char.toLower` matches JS
`toLowerCase` on the ASCII range, which contains every extension the policy
compares against. -/
def getFileExtension (filename : List Char) : List Char :=
  match (filename.splitOn '.').getLast? with
  | some ext => ext.map Char.toLower
  | none => []

/-- `validateFileType` (file-processor.ts lines 41-45): the lowercased
extension must be `txt` or `md`. -/
def validateFileType (filename : List Char) : Bool :=
  let allowedExtensions : List (List Char) := ["txt".toList, "md".toList]
  let extension := getFileExtension filename
  allowedExtensions.contains extension

/-- The fixed rejection message of the disabled PDF path
(file-processor.ts line 7). -/
def pdfUnavailableMessage : List Char :=
  ("PDF support is temporarily unavailable." ++
   " Please upload TXT or MD files instead.").toList

/-- `extractTextFromPDF` (file-processor.ts lines 6-8): unconditionally throws;
modelled as `Except.error` of the fixed message. -/
def extractTextFromPDF (_buffer : List UInt8) :
    Except (List Char) (List Char) :=
  Except.error pdfUnavailableMessage

/-- JS `a || b` on strings: the empty string is falsy. -/
def jsOrStr (a b : List Char) : List Char :=
  if a = [] then b else a

/-- The pure content of one Pinecone record built by the ingest route
(part_002 lines 316-329): the namespace prefix of the `id`, the chunk text,
the chunk index, the total chunk count, and `metadata.namespace`. -/
structure ChunkVector where
  idNsPart : List Char
  text : List Char
  chunkIndex : Nat
  totalChunks : Nat
  metadataNamespace : List Char
  deriving DecidableEq

/-- The record list built by the ingest route from the chunks (part_002 lines
316-329); both the id and the metadata use `namespace || 'default'`. -/
def buildVectors (nsArg : List Char) (chunks : List (List Char)) :
    List ChunkVector :=
  chunks.enum.map (fun p =>
    { idNsPart := jsOrStr nsArg "default".toList
      text := p.2
      chunkIndex := p.1
      totalChunks := chunks.length
      metadataNamespace := jsOrStr nsArg "default".toList })

/-- The namespace the upsert call targets (part_002 line 348):
`index.namespace(namespace || '').upsert(batch)`. -/
def upsertTargetNamespace (nsArg : List Char) : List Char :=
  jsOrStr nsArg []

/-- Unfolding equation for one iteration of the `chunkText` loop. -/
theorem chunkTextGo_succ (text : List Char) (chunkSize overlap fuel : Nat)
    (s : Int) :
    chunkTextGo text chunkSize overlap (fuel + 1) s =
      if s < (text.length : Int) then
        if min (s + (chunkSize : Int)) (text.length : Int) = (text.length : Int) then
          some [jsSubstring text s (min (s + (chunkSize : Int)) (text.length : Int))]
        else
          (chunkTextGo text chunkSize overlap fuel
              (s + ((chunkSize : Int) - (overlap : Int)))).map
            (fun rest =>
              jsSubstring text s (min (s + (chunkSize : Int)) (text.length : Int)) :: rest)
      else some [] := rfl

/-- Unfolding equation for one iteration of the `chunkTextSmart` loop. -/
theorem chunkTextSmartGo_succ (text : List Char) (chunkSize overlap fuel : Nat)
    (s : Int) :
    chunkTextSmartGo text chunkSize overlap (fuel + 1) s =
      if s < (text.length : Int) then
        (if smartEnd text chunkSize s = (text.length : Int) then some []
         else chunkTextSmartGo text chunkSize overlap fuel
           (smartEnd text chunkSize s - (overlap : Int))).map
          (fun r =>
            if jsTrim (jsSubstring text s (smartEnd text chunkSize s)) = [] then r
            else jsTrim (jsSubstring text s (smartEnd text chunkSize s)) :: r)
      else some [] := rfl

theorem forall_mem_dropWhile_iff (p : Char → Bool) (l : List Char) :
    (∀ c ∈ l.dropWhile p, p c = true) ↔ (∀ c ∈ l, p c = true) := by
  induction l with
  | nil => simp
  | cons a t ih =>
    by_cases h : p a
    · simpa [List.dropWhile_cons, h] using ih
    · simp [List.dropWhile_cons, h]

/-- JS `trim` returns the empty string exactly on all-whitespace input. -/
theorem jsTrim_eq_nil_iff (l : List Char) :
    jsTrim l = [] ↔ ∀ c ∈ l, jsWhitespace c = true := by
  unfold jsTrim
  rw [List.reverse_eq_nil_iff, List.dropWhile_eq_nil_iff]
  constructor
  · intro h
    rw [← forall_mem_dropWhile_iff jsWhitespace l]
    intro c hc
    exact h c (List.mem_reverse.mpr hc)
  · intro h c hc
    exact (forall_mem_dropWhile_iff jsWhitespace l).mpr h c
      (List.mem_reverse.mp hc)

theorem dropWhile_cons_head_false (p : Char → Bool) :
    ∀ (l : List Char) (a : Char) (t : List Char),
      l.dropWhile p = a :: t → p a = false := by
  intro l
  induction l with
  | nil => intro a t h; simp at h
  | cons b s ih =>
    intro a t h
    by_cases hb : p b
    · rw [List.dropWhile_cons, if_pos hb] at h
      exact ih a t h
    · rw [List.dropWhile_cons, if_neg hb] at h
      injection h with h1 _
      rw [← h1]
      exact Bool.not_eq_true (p b) ▸ eq_false_of_ne_true hb

/-- A non-empty trimmed string contains a non-whitespace character. -/
theorem jsTrim_mem_nonws (l : List Char) (h : jsTrim l ≠ []) :
    ∃ c ∈ jsTrim l, jsWhitespace c = false := by
  unfold jsTrim at *
  cases hXv : (l.dropWhile jsWhitespace).reverse.dropWhile jsWhitespace with
  | nil => rw [hXv] at h; simp at h
  | cons a t =>
    refine ⟨a, ?_, dropWhile_cons_head_false jsWhitespace _ a t hXv⟩
    simp

/-- On in-range indices, `jsSubstring` is `take`-then-`drop`. -/
theorem jsSubstring_eq_take_drop (text : List Char) (a b : Int)
    (ha : 0 ≤ a) (hab : a ≤ b) (hb : b ≤ (text.length : Int)) :
    jsSubstring text a b = (text.take b.toNat).drop a.toNat := by
  have hA : min (max a 0) (text.length : Int) = a := by
    rw [max_eq_left ha, min_eq_left (le_trans hab hb)]
  have hB : min (max b 0) (text.length : Int) = b := by
    rw [max_eq_left (le_trans ha hab), min_eq_left hb]
  show (text.take (max (min (max a 0) (text.length : Int))
      (min (max b 0) (text.length : Int))).toNat).drop
      (min (min (max a 0) (text.length : Int))
        (min (max b 0) (text.length : Int))).toNat = _
  rw [hA, hB, min_eq_left hab, max_eq_right hab]

theorem jsSubstring_length (text : List Char) (a b : Int)
    (ha : 0 ≤ a) (hab : a ≤ b) (hb : b ≤ (text.length : Int)) :
    (jsSubstring text a b).length = b.toNat - a.toNat := by
  rw [jsSubstring_eq_take_drop text a b ha hab hb, List.length_drop,
    List.length_take]
  omega

/-- Master invariant of the `chunkText` loop for a positive step
(`overlap < chunkSize`): from cursor `s` with more than `overlap` characters
left, the loop terminates within the remaining-length fuel, produces a
non-empty chunk list bounded by the ceiling of remaining length over step, the
first chunk has the expected width, and the chunks reconstruct the remaining
text once the `overlap`-prefix of each later chunk is dropped. -/
theorem chunkTextGo_spec (text : List Char) (chunkSize overlap : Nat)
    (hov : overlap < chunkSize) :
    ∀ (fuel s : Nat), s < text.length → overlap < text.length - s →
      text.length - s ≤ fuel →
      ∃ c cks,
        chunkTextGo text chunkSize overlap fuel (s : Int) = some (c :: cks) ∧
        c.length = min chunkSize (text.length - s) ∧
        (c :: cks).length ≤ (text.length - s - 1) / (chunkSize - overlap) + 1 ∧
        c ++ (cks.map (List.drop overlap)).flatten = text.drop s := by
  intro fuel
  induction fuel with
  | zero => intro s hs _ hf; omega
  | succ f ih =>
    intro s hs hovs hf
    have hsl : ((s : Int) < (text.length : Int)) := by exact_mod_cast hs
    rw [chunkTextGo_succ, if_pos hsl]
    by_cases hend : text.length ≤ s + chunkSize
    · -- this iteration reaches the end of the text
      have he : min ((s : Int) + (chunkSize : Int)) ((text.length : Int)) =
          (text.length : Int) := by
        rw [min_eq_right]
        exact_mod_cast hend
      rw [he, if_pos rfl]
      have hsub : jsSubstring text (s : Int) ((text.length : Int)) =
          text.drop s := by
        rw [jsSubstring_eq_take_drop text _ _ (by positivity)
          (by exact_mod_cast le_of_lt hs) le_rfl]
        simp
      refine ⟨text.drop s, [], by rw [hsub], ?_, by simp, by simp⟩
      rw [List.length_drop]
      omega
    · -- the naive end is strictly inside the text
      push_neg at hend
      have he : min ((s : Int) + (chunkSize : Int)) ((text.length : Int)) =
          (((s + chunkSize : Nat) : Nat) : Int) := by
        rw [min_eq_left (by exact_mod_cast le_of_lt hend)]
        push_cast
        ring
      have hne : ¬ (min ((s : Int) + (chunkSize : Int)) ((text.length : Int)) =
          (text.length : Int)) := by
        rw [he]
        intro hcon
        have : s + chunkSize = text.length := by exact_mod_cast hcon
        omega
      rw [if_neg hne]
      have hstep : ((s : Int) + ((chunkSize : Int) - (overlap : Int))) =
          (((s + (chunkSize - overlap) : Nat) : Nat) : Int) := by
        push_cast [Nat.cast_sub (le_of_lt hov)]
        ring
      rw [hstep]
      obtain ⟨c', cks', hGo, hlen', hcount', hrecon'⟩ :=
        ih (s + (chunkSize - overlap)) (by omega) (by omega) (by omega)
      rw [hGo]
      have hsub : jsSubstring text (s : Int)
          ((((s + chunkSize : Nat) : Nat) : Int)) =
          (text.take (s + chunkSize)).drop s := by
        rw [jsSubstring_eq_take_drop text _ _ (by positivity)
          (by exact_mod_cast Nat.le_add_right s chunkSize)
          (by exact_mod_cast le_of_lt hend)]
        have h1 : ((s : Int)).toNat = s := by omega
        have h2 : ((((s + chunkSize : Nat) : Nat) : Int)).toNat = s + chunkSize := by
          omega
        rw [h1, h2]
      refine ⟨(text.take (s + chunkSize)).drop s, c' :: cks',
        by rw [he, hsub]; rfl, ?_, ?_, ?_⟩
      · rw [List.length_drop, List.length_take]
        omega
      · have hdiv : (text.length - s - 1) / (chunkSize - overlap) =
            (text.length - (s + (chunkSize - overlap)) - 1) /
              (chunkSize - overlap) + 1 := by
          rw [show text.length - s - 1 =
            (text.length - (s + (chunkSize - overlap)) - 1) +
              (chunkSize - overlap) by omega]
          exact Nat.add_div_right _ (by omega)
        simp only [List.length_cons] at hcount' ⊢
        omega
      · have hle : overlap ≤ c'.length := by
          rw [hlen']
          omega
        have hdropc : ((c' :: cks').map (List.drop overlap)).flatten =
            List.drop overlap (text.drop (s + (chunkSize - overlap))) := by
          rw [← hrecon']
          simp only [List.map_cons, List.flatten_cons]
          rw [List.drop_append_of_le_length hle]
        rw [hdropc, List.drop_drop]
        rw [show s + (chunkSize - overlap) + overlap = s + chunkSize by omega]
        calc (text.take (s + chunkSize)).drop s ++ text.drop (s + chunkSize)
            = (text.take (s + chunkSize) ++ text.drop (s + chunkSize)).drop s := by
              rw [List.drop_append_of_le_length]
              rw [List.length_take]
              omega
          _ = text.drop s := by rw [List.take_append_drop]

theorem jsLastIndexOf_ge_neg_one (s pat : List Char) :
    -1 ≤ jsLastIndexOf s pat := by
  unfold jsLastIndexOf
  cases ((List.range (s.length + 1)).filter
      (fun i => pat.isPrefixOf (s.drop i))).getLast? with
  | none => simp
  | some i => simp; omega

theorem boundaryStep_ge (w : List Char) (lb : Int) (e : List Char) :
    lb ≤ boundaryStep w lb e := by
  unfold boundaryStep
  by_cases h : jsLastIndexOf w e > lb
  · rw [if_pos h]
    have : (0 : Int) ≤ (e.length : Int) := by positivity
    omega
  · rw [if_neg h]

theorem foldl_boundaryStep_ge (w : List Char) (es : List (List Char)) :
    ∀ lb : Int, lb ≤ es.foldl (boundaryStep w) lb := by
  induction es with
  | nil => intro lb; exact le_rfl
  | cons a t ih =>
    intro lb
    exact le_trans (boundaryStep_ge w lb a) (ih (boundaryStep w lb a))

theorem foldl_boundaryStep_mem (w : List Char) (es : List (List Char)) :
    ∀ (lb : Int) (e : List Char), e ∈ es →
      jsLastIndexOf w e ≤ es.foldl (boundaryStep w) lb := by
  induction es with
  | nil => intro lb e he; simp at he
  | cons a t ih =>
    intro lb e he
    rcases List.mem_cons.mp he with rfl | hm
    · refine le_trans ?_ (foldl_boundaryStep_ge w t (boundaryStep w lb e))
      unfold boundaryStep
      by_cases h : jsLastIndexOf w e > lb
      · rw [if_pos h]
        have : (0 : Int) ≤ (e.length : Int) := by positivity
        omega
      · rw [if_neg h]
        omega
    · exact ih (boundaryStep w lb a) e hm

theorem foldl_boundaryStep_eq (w : List Char) (es : List (List Char)) :
    ∀ lb : Int, es.foldl (boundaryStep w) lb = lb ∨
      ∃ e ∈ es, lb < jsLastIndexOf w e ∧
        es.foldl (boundaryStep w) lb =
          jsLastIndexOf w e + (e.length : Int) := by
  induction es with
  | nil => intro lb; left; rfl
  | cons a t ih =>
    intro lb
    rcases ih (boundaryStep w lb a) with heq | ⟨e, he, hlt, heq⟩
    · by_cases h : jsLastIndexOf w a > lb
      · right
        refine ⟨a, List.mem_cons_self a t, h, ?_⟩
        rw [List.foldl_cons, heq]
        unfold boundaryStep
        rw [if_pos h]
      · left
        rw [List.foldl_cons, heq]
        unfold boundaryStep
        rw [if_neg h]
    · right
      refine ⟨e, List.mem_cons_of_mem a he, ?_, by rw [List.foldl_cons, heq]⟩
      exact lt_of_le_of_lt (boundaryStep_ge w lb a) hlt

theorem foldl_boundaryStep_none (w : List Char) (es : List (List Char)) :
    ∀ lb : Int, (∀ e ∈ es, jsLastIndexOf w e ≤ lb) →
      es.foldl (boundaryStep w) lb = lb := by
  induction es with
  | nil => intro lb _; rfl
  | cons a t ih =>
    intro lb h
    have hstep : boundaryStep w lb a = lb := by
      unfold boundaryStep
      rw [if_neg (by exact not_lt.mpr (h a (List.mem_cons_self a t)))]
    rw [List.foldl_cons, hstep]
    exact ih lb (fun e he => h e (List.mem_cons_of_mem a he))

/-- Unfolding equation for `smartEnd`. -/
theorem smartEnd_eq (text : List Char) (chunkSize : Nat) (startIndex : Int) :
    smartEnd text chunkSize startIndex =
      if naiveEnd text chunkSize startIndex < (text.length : Int) then
        if lastBoundaryOf (searchWindow text chunkSize startIndex) > 0 then
          searchStartOf text chunkSize startIndex +
            lastBoundaryOf (searchWindow text chunkSize startIndex)
        else naiveEnd text chunkSize startIndex
      else naiveEnd text chunkSize startIndex := rfl

/-- C1 (amended): for a non-final chunk, if no marker occurs in the search
window the naive end is kept; if some marker occurs, the chunk's end is the
absolute offset just after the last occurrence of one of the markers, and the
last occurrence of every marker starts no more than two characters past that
selected occurrence's start.  (The source updates its candidate only when a
marker's last-occurrence START exceeds the current candidate's END offset, so
the selected boundary can sit up to two characters left of the rightmost
last-occurrence end, as `smartEnd_not_rightmost_cex` shows; it is never to the
right of it.) -/
theorem smartEnd_boundary_selection (text : List Char) (chunkSize : Nat)
    (startIndex : Int)
    (hfin : naiveEnd text chunkSize startIndex < (text.length : Int)) :
    ((∀ e ∈ sentenceEndings,
        jsLastIndexOf (searchWindow text chunkSize startIndex) e = -1) →
      smartEnd text chunkSize startIndex = naiveEnd text chunkSize startIndex)
    ∧ ((∃ e ∈ sentenceEndings,
        0 ≤ jsLastIndexOf (searchWindow text chunkSize startIndex) e) →
      ∃ e ∈ sentenceEndings,
        0 ≤ jsLastIndexOf (searchWindow text chunkSize startIndex) e ∧
        smartEnd text chunkSize startIndex =
          searchStartOf text chunkSize startIndex +
            jsLastIndexOf (searchWindow text chunkSize startIndex) e + 2 ∧
        ∀ e2 ∈ sentenceEndings,
          jsLastIndexOf (searchWindow text chunkSize startIndex) e2 ≤
            jsLastIndexOf (searchWindow text chunkSize startIndex) e + 2) := by
  have hlen2 : ∀ x ∈ sentenceEndings, x.length = 2 := by decide
  constructor
  · intro hnone
    have hL : lastBoundaryOf (searchWindow text chunkSize startIndex) = -1 := by
      unfold lastBoundaryOf
      exact foldl_boundaryStep_none _ sentenceEndings (-1)
        (fun e he => le_of_eq (hnone e he))
    rw [smartEnd_eq, if_pos hfin, hL, if_neg (by omega)]
  · rintro ⟨e0, he0, hpos0⟩
    rcases foldl_boundaryStep_eq (searchWindow text chunkSize startIndex)
        sentenceEndings (-1) with heq | ⟨e, he, hlt, heq⟩
    · exfalso
      have := foldl_boundaryStep_mem (searchWindow text chunkSize startIndex)
        sentenceEndings (-1) e0 he0
      rw [heq] at this
      omega
    · have hL : lastBoundaryOf (searchWindow text chunkSize startIndex) =
          jsLastIndexOf (searchWindow text chunkSize startIndex) e + 2 := by
        unfold lastBoundaryOf
        rw [heq, hlen2 e he]
        norm_num
      refine ⟨e, he, by omega, ?_, ?_⟩
      · rw [smartEnd_eq, if_pos hfin, hL, if_pos (by omega)]
        ring
      · intro e2 he2
        have := foldl_boundaryStep_mem (searchWindow text chunkSize startIndex)
          sentenceEndings (-1) e2 he2
        rw [show sentenceEndings.foldl
          (boundaryStep (searchWindow text chunkSize startIndex)) (-1) =
          lastBoundaryOf (searchWindow text chunkSize startIndex) from rfl,
          hL] at this
        exact this

/-- C1 counterexample: on a 25-character text whose first search window is
`"a.\n\n"` (markers `".\n"` at 1 and `"\n\n"` at 2), the source selects the
boundary after `".\n"` (end 19) while the specified rightmost-occurrence rule
selects the boundary after `"\n\n"` (end 20). -/
theorem smartEnd_not_rightmost_cex :
    smartEnd boundaryCexText 20 0 = 19 ∧
    smartEndRightmost boundaryCexText 20 0 = 20 ∧
    smartEnd boundaryCexText 20 0 ≠ smartEndRightmost boundaryCexText 20 0 := by
  refine ⟨by decide, by decide, by decide⟩

/-- Witness for `smartEnd_boundary_selection` at the concrete window
`"a.\n\n"`. -/
theorem smartEnd_boundary_selection_w :
    ∃ e ∈ sentenceEndings,
      0 ≤ jsLastIndexOf (searchWindow boundaryCexText 20 0) e ∧
      smartEnd boundaryCexText 20 0 =
        searchStartOf boundaryCexText 20 0 +
          jsLastIndexOf (searchWindow boundaryCexText 20 0) e + 2 ∧
      ∀ e2 ∈ sentenceEndings,
        jsLastIndexOf (searchWindow boundaryCexText 20 0) e2 ≤
          jsLastIndexOf (searchWindow boundaryCexText 20 0) e + 2 :=
  (smartEnd_boundary_selection boundaryCexText 20 0 (by decide)).2
    ⟨['.', '\n'], by decide, by decide⟩

/-- C2: for `chunkSize > 0` and `0 <= overlap < chunkSize`, `chunkText`
terminates on every text and returns at most
`ceil(text.length / (chunkSize - overlap))` chunks (one chunk per loop
iteration). -/
theorem chunkText_terminates_within_bound (text : List Char)
    (chunkSize overlap : Nat) (_hcs : 0 < chunkSize)
    (hov : overlap < chunkSize) :
    ∃ chunks, chunkText text chunkSize overlap = some chunks ∧
      chunks.length ≤
        (text.length + (chunkSize - overlap) - 1) / (chunkSize - overlap) := by
  unfold chunkText
  by_cases h0 : text = [] ∨ (jsTrim text).length = 0
  · rw [if_pos h0]
    exact ⟨[], rfl, by simp⟩
  · rw [if_neg h0]
    by_cases h1 : text.length ≤ chunkSize
    · rw [if_pos h1]
      refine ⟨[text], rfl, ?_⟩
      have hne : text ≠ [] := fun hx => h0 (Or.inl hx)
      have hlen : 1 ≤ text.length := List.length_pos.mpr hne
      simp only [List.length_cons, List.length_nil]
      rw [Nat.le_div_iff_mul_le (by omega)]
      omega
    · rw [if_neg h1]
      push_neg at h1
      obtain ⟨c, cks, hGo, _, hcount, _⟩ := chunkTextGo_spec text chunkSize
        overlap hov (text.length + 1) 0 (by omega) (by omega) (by omega)
      refine ⟨c :: cks, by rw [← hGo]; norm_num, ?_⟩
      have hrw : text.length + (chunkSize - overlap) - 1 =
          (text.length - 1) + (chunkSize - overlap) := by omega
      rw [hrw, Nat.add_div_right _ (by omega)]
      simpa using hcount

/-- Witness for `chunkText_terminates_within_bound` on the 5-character text
`"abcde"` with `chunkSize = 2`, `overlap = 1`. -/
theorem chunkText_terminates_within_bound_w :
    ∃ chunks, chunkText ['a', 'b', 'c', 'd', 'e'] 2 1 = some chunks ∧
      chunks.length ≤
        ((['a', 'b', 'c', 'd', 'e'] : List Char).length + (2 - 1) - 1) /
          (2 - 1) :=
  chunkText_terminates_within_bound ['a', 'b', 'c', 'd', 'e'] 2 1
    (by decide) (by decide)

/-- C3: the `chunkText` loop does not terminate when the step
`chunkSize - overlap` is zero: on the 2-character text `"ab"` with
`chunkSize = 1`, `overlap = 1`, the cursor never advances, every fuel runs out
(`none` for all fuel), and `chunkText` returns `none` — the source has no
guard for a non-positive step. -/
theorem chunkText_diverges_on_equal_overlap :
    (∀ fuel : Nat, chunkTextGo ['a', 'b'] 1 1 fuel 0 = none) ∧
    chunkText ['a', 'b'] 1 1 = none := by
  have hgo : ∀ fuel : Nat, chunkTextGo ['a', 'b'] 1 1 fuel 0 = none := by
    intro fuel
    induction fuel with
    | zero => rfl
    | succ f ihf =>
      rw [chunkTextGo_succ]
      rw [if_pos (by decide), if_neg (by decide),
        show (0 : Int) + ((1 : Nat) - (1 : Nat) : Int) = 0 by norm_num,
        ihf]
      rfl
  refine ⟨hgo, ?_⟩
  unfold chunkText
  rw [if_neg (by decide), if_neg (by decide)]
  exact hgo _

/-- C4 counterexample: on a whitespace-only text `" "` the fixed-width chunker
returns no chunk rather than the single chunk `" "`, and on the text `" a"`
(length within `chunkSize`) the boundary-aware chunker returns the text
untrimmed, not trimmed. -/
theorem chunkers_small_input_cex :
    chunkText [' '] 1 0 = some [] ∧
    chunkTextSmart [' ', 'a'] 2 0 = some [[' ', 'a']] ∧
    chunkTextSmart [' ', 'a'] 2 0 ≠ some [jsTrim [' ', 'a']] := by
  refine ⟨by decide, by decide, by decide⟩

/-- C4 (amended): for every text that contains a non-whitespace character and
whose length is at most `chunkSize`, both chunkers return exactly one chunk
equal to the text itself — the boundary-aware chunker does not trim in this
short-circuit case. -/
theorem chunkers_small_input (text : List Char) (chunkSize overlap : Nat)
    (htrim : jsTrim text ≠ []) (hlen : text.length ≤ chunkSize) :
    chunkText text chunkSize overlap = some [text] ∧
    chunkTextSmart text chunkSize overlap = some [text] := by
  have h0 : ¬(text = [] ∨ (jsTrim text).length = 0) := by
    rintro (rfl | h)
    · exact htrim rfl
    · exact htrim (List.length_eq_zero.mp h)
  constructor
  · unfold chunkText
    rw [if_neg h0, if_pos hlen]
  · unfold chunkTextSmart
    rw [if_neg h0, if_pos hlen]

/-- Witness for `chunkers_small_input` on the text `"a"`. -/
theorem chunkers_small_input_w :
    chunkText ['a'] 1 0 = some [['a']] ∧
    chunkTextSmart ['a'] 1 0 = some [['a']] :=
  chunkers_small_input ['a'] 1 0 (by decide) (by decide)

/-- C5 counterexample: on the whitespace-only text `" "` (with
`chunkSize = 1 > 0` and `overlap = 0`) the fixed-width chunker returns no
chunks, whose reconstruction is the empty text, not `" "`. -/
theorem chunkText_roundtrip_cex :
    chunkText [' '] 1 0 = some [] ∧ chunkRecon 0 [] ≠ [' '] := by
  refine ⟨by decide, by decide⟩

/-- C5 (amended): for every text containing a non-whitespace character,
`chunkSize > 0` and `0 <= overlap < chunkSize`, concatenating the fixed-width
chunks with the first `overlap` characters of every non-initial chunk dropped
reconstructs the text exactly. -/
theorem chunkText_roundtrip (text : List Char) (chunkSize overlap : Nat)
    (htrim : jsTrim text ≠ []) (_hcs : 0 < chunkSize)
    (hov : overlap < chunkSize) :
    ∃ chunks, chunkText text chunkSize overlap = some chunks ∧
      chunkRecon overlap chunks = text := by
  have h0 : ¬(text = [] ∨ (jsTrim text).length = 0) := by
    rintro (rfl | h)
    · exact htrim rfl
    · exact htrim (List.length_eq_zero.mp h)
  unfold chunkText
  rw [if_neg h0]
  by_cases h1 : text.length ≤ chunkSize
  · rw [if_pos h1]
    exact ⟨[text], rfl, by simp [chunkRecon]⟩
  · rw [if_neg h1]
    push_neg at h1
    obtain ⟨c, cks, hGo, _, _, hrecon⟩ := chunkTextGo_spec text chunkSize
      overlap hov (text.length + 1) 0 (by omega) (by omega) (by omega)
    refine ⟨c :: cks, by rw [← hGo]; norm_num, ?_⟩
    simp only [chunkRecon]
    simpa using hrecon

/-- Witness for `chunkText_roundtrip` on the text `"abc"` with
`chunkSize = 2`, `overlap = 1`. -/
theorem chunkText_roundtrip_w :
    ∃ chunks, chunkText ['a', 'b', 'c'] 2 1 = some chunks ∧
      chunkRecon 1 chunks = ['a', 'b', 'c'] :=
  chunkText_roundtrip ['a', 'b', 'c'] 2 1 (by decide) (by decide) (by decide)

/-- C6 counterexample: a 2500-character text consisting only of spaces yields
no chunks at all (the whitespace short-circuit fires), not the three claimed
chunks. -/
theorem chunkText_2500_cex :
    chunkText (List.replicate 2500 ' ') 1000 200 = some [] := by
  have hws : ∀ c ∈ List.replicate 2500 ' ', jsWhitespace c = true := by
    intro c hc
    rw [List.eq_of_mem_replicate hc]
    decide
  unfold chunkText
  rw [if_pos (Or.inr (by rw [(jsTrim_eq_nil_iff _).mpr hws]; rfl))]

/-- C6 (amended): for every 2500-character text containing a non-whitespace
character, `chunkText` with `chunkSize = 1000`, `overlap = 200` returns
exactly the three chunks over the ranges `[0,1000)`, `[800,1800)`,
`[1600,2500)` (cursor step 800, last chunk shorter). -/
theorem chunkText_2500_ranges (text : List Char) (hlen : text.length = 2500)
    (htrim : jsTrim text ≠ []) :
    chunkText text 1000 200 =
      some [text.take 1000, (text.take 1800).drop 800, text.drop 1600] := by
  have h0 : ¬(text = [] ∨ (jsTrim text).length = 0) := by
    rintro (rfl | h)
    · exact htrim rfl
    · exact htrim (List.length_eq_zero.mp h)
  have hs1 : jsSubstring text 0 1000 = text.take 1000 := by
    rw [jsSubstring_eq_take_drop text 0 1000 (by norm_num) (by norm_num)
      (by rw [hlen]; norm_num)]
    rfl
  have hs2 : jsSubstring text 800 1800 = (text.take 1800).drop 800 := by
    rw [jsSubstring_eq_take_drop text 800 1800 (by norm_num) (by norm_num)
      (by rw [hlen]; norm_num)]
    rfl
  have hs3 : jsSubstring text 1600 ((text.length : Int)) = text.drop 1600 := by
    rw [jsSubstring_eq_take_drop text 1600 _ (by norm_num)
      (by rw [hlen]; norm_num) le_rfl]
    have h2 : ((text.length : Int)).toNat = text.length := by omega
    rw [h2, List.take_length]
    rfl
  have hmin3 : min ((1600 : Int) + ((1000 : Nat) : Int)) ((text.length : Int)) =
      ((text.length : Int)) := by
    rw [hlen]; push_cast; norm_num
  have step3 : ∀ f : Nat, chunkTextGo text 1000 200 (f + 1) 1600 =
      some [text.drop 1600] := by
    intro f
    rw [chunkTextGo_succ, hmin3, if_pos (by rw [hlen]; norm_num), if_pos rfl,
      hs3]
  have hmin2 : min ((800 : Int) + ((1000 : Nat) : Int)) ((text.length : Int)) =
      (1800 : Int) := by
    rw [hlen]; push_cast; norm_num
  have step2 : ∀ f : Nat, chunkTextGo text 1000 200 (f + 1 + 1) 800 =
      some [(text.take 1800).drop 800, text.drop 1600] := by
    intro f
    rw [chunkTextGo_succ, hmin2, if_pos (by rw [hlen]; norm_num),
      if_neg (by rw [hlen]; norm_num),
      show (800 : Int) + (((1000 : Nat) : Int) - ((200 : Nat) : Int)) = 1600 by
        omega,
      step3 f, hs2]
    rfl
  have hmin1 : min ((0 : Int) + ((1000 : Nat) : Int)) ((text.length : Int)) =
      (1000 : Int) := by
    rw [hlen]; push_cast; norm_num
  have step1 : chunkTextGo text 1000 200 (2498 + 1 + 1 + 1) 0 =
      some [text.take 1000, (text.take 1800).drop 800, text.drop 1600] := by
    rw [chunkTextGo_succ, hmin1, if_pos (by rw [hlen]; norm_num),
      if_neg (by rw [hlen]; norm_num),
      show (0 : Int) + (((1000 : Nat) : Int) - ((200 : Nat) : Int)) = 800 by
        omega,
      step2 2498, hs1]
    rfl
  unfold chunkText
  rw [if_neg h0, if_neg (by omega),
    show text.length + 1 = 2498 + 1 + 1 + 1 by omega]
  exact step1

/-- Witness for `chunkText_2500_ranges` on 2500 letters `a`. -/
theorem chunkText_2500_ranges_w :
    chunkText (List.replicate 2500 'a') 1000 200 =
      some [(List.replicate 2500 'a').take 1000,
        ((List.replicate 2500 'a').take 1800).drop 800,
        (List.replicate 2500 'a').drop 1600] :=
  chunkText_2500_ranges (List.replicate 2500 'a')
    (List.length_replicate 2500 'a')
    (by
      intro h
      have hws := (jsTrim_eq_nil_iff _).mp h 'a'
        (List.mem_replicate.mpr ⟨by norm_num, rfl⟩)
      exact absurd hws (by decide))

/-- C7 counterexample: with an empty caller namespace the upsert call targets
the empty-string namespace, not the string `"default"`. -/
theorem ingest_namespace_cex :
    upsertTargetNamespace [] = [] ∧
    upsertTargetNamespace [] ≠ "default".toList := by
  refine ⟨by decide, by decide⟩

/-- C7 (amended): when the caller-supplied namespace is empty, every record
built for the vector store carries `metadata.namespace = "default"` and an id
prefixed with `"default"`, but the upsert call itself targets the empty-string
namespace (`namespace || ''`), not `"default"`. -/
theorem ingest_namespace_default (chunks : List (List Char))
    (v : ChunkVector) (hv : v ∈ buildVectors [] chunks) :
    v.metadataNamespace = "default".toList ∧
    v.idNsPart = "default".toList ∧
    upsertTargetNamespace [] = [] := by
  unfold buildVectors at hv
  simp only [List.mem_map] at hv
  obtain ⟨p, _, rfl⟩ := hv
  exact ⟨rfl, rfl, rfl⟩

/-- Witness for `ingest_namespace_default` on a single chunk `"hi"`. -/
theorem ingest_namespace_default_w :
    ({ idNsPart := "default".toList, text := ['h', 'i'], chunkIndex := 0,
       totalChunks := 1,
       metadataNamespace := "default".toList } : ChunkVector).metadataNamespace
        = "default".toList ∧
    ({ idNsPart := "default".toList, text := ['h', 'i'], chunkIndex := 0,
       totalChunks := 1,
       metadataNamespace := "default".toList } : ChunkVector).idNsPart
        = "default".toList ∧
    upsertTargetNamespace [] = [] :=
  ingest_namespace_default [['h', 'i']] _ (by decide)

/-- Members of the boundary-aware loop's output are trimmed non-empty
strings. -/
theorem chunkTextSmartGo_mem (text : List Char) (chunkSize overlap : Nat) :
    ∀ (fuel : Nat) (s : Int) (cks : List (List Char)),
      chunkTextSmartGo text chunkSize overlap fuel s = some cks →
      ∀ c ∈ cks, (∃ raw, c = jsTrim raw) ∧ c ≠ [] := by
  intro fuel
  induction fuel with
  | zero =>
    intro s cks h
    exact absurd h (by simp [chunkTextSmartGo])
  | succ f ih =>
    intro s cks h
    rw [chunkTextSmartGo_succ] at h
    by_cases hs : s < (text.length : Int)
    · rw [if_pos hs] at h
      by_cases hend : smartEnd text chunkSize s = (text.length : Int)
      · rw [if_pos hend] at h
        simp only [Option.map_some'] at h
        by_cases hchunk :
            jsTrim (jsSubstring text s (smartEnd text chunkSize s)) = []
        · rw [if_pos hchunk] at h
          intro c hc
          simp only [Option.some.injEq] at h
          rw [← h] at hc
          simp at hc
        · rw [if_neg hchunk] at h
          intro c hc
          have hcks : cks =
              [jsTrim (jsSubstring text s (smartEnd text chunkSize s))] :=
            (Option.some.injEq _ _).mp h |>.symm
          rw [hcks] at hc
          rcases List.mem_singleton.mp hc with rfl
          exact ⟨⟨jsSubstring text s (smartEnd text chunkSize s), rfl⟩, hchunk⟩
      · rw [if_neg hend] at h
        rcases Option.map_eq_some'.mp h with ⟨r, hr, hfr⟩
        by_cases hchunk :
            jsTrim (jsSubstring text s (smartEnd text chunkSize s)) = []
        · rw [if_pos hchunk] at hfr
          rw [← hfr]
          exact ih _ r hr
        · rw [if_neg hchunk] at hfr
          intro c hc
          rw [← hfr] at hc
          rcases List.mem_cons.mp hc with rfl | hm
          · exact ⟨⟨jsSubstring text s (smartEnd text chunkSize s), rfl⟩,
              hchunk⟩
          · exact ih _ r hr c hm
    · rw [if_neg hs] at h
      intro c hc
      have hcks : cks = [] := ((Option.some.injEq _ _).mp h).symm
      rw [hcks] at hc
      simp at hc


/-- Every character of the trimmed string occurs in the original string. -/
theorem jsTrim_subset (l : List Char) : ∀ c ∈ jsTrim l, c ∈ l := by
  intro c hc
  unfold jsTrim at hc
  rw [List.mem_reverse] at hc
  have h1 : c ∈ (l.dropWhile jsWhitespace).reverse :=
    (List.dropWhile_sublist _).subset hc
  rw [List.mem_reverse] at h1
  exact (List.dropWhile_sublist _).subset h1

/-- C8: every chunk returned by `chunkTextSmart` is non-empty after trimming
and contains at least one non-whitespace character: empty trimmed chunks are
skipped, never emitted. -/
theorem chunkTextSmart_no_empty_chunks (text : List Char)
    (chunkSize overlap : Nat) (cks : List (List Char))
    (h : chunkTextSmart text chunkSize overlap = some cks) :
    ∀ c ∈ cks, jsTrim c ≠ [] ∧ ∃ ch ∈ c, jsWhitespace ch = false := by
  have derive : ∀ c : List Char, (∃ raw, c = jsTrim raw) → c ≠ [] →
      jsTrim c ≠ [] ∧ ∃ ch ∈ c, jsWhitespace ch = false := by
    rintro c ⟨raw, rfl⟩ hne
    have hnonws := jsTrim_mem_nonws raw hne
    refine ⟨?_, hnonws⟩
    intro htr
    obtain ⟨ch, hch, hws⟩ := hnonws
    have hma := (jsTrim_eq_nil_iff (jsTrim raw)).mp htr ch hch
    rw [hma] at hws
    simp at hws
  unfold chunkTextSmart at h
  by_cases h0 : text = [] ∨ (jsTrim text).length = 0
  · rw [if_pos h0] at h
    have hcks : cks = [] := ((Option.some.injEq _ _).mp h).symm
    rw [hcks]
    intro c hc
    simp at hc
  · rw [if_neg h0] at h
    push_neg at h0
    by_cases h1 : text.length ≤ chunkSize
    · rw [if_pos h1] at h
      have hcks : cks = [text] := ((Option.some.injEq _ _).mp h).symm
      rw [hcks]
      intro c hc
      have hc' : c = text := List.mem_singleton.mp hc
      rw [hc']
      have htrim : jsTrim text ≠ [] := fun hx => h0.2 (by rw [hx]; rfl)
      obtain ⟨ch, hch, hws⟩ := jsTrim_mem_nonws text htrim
      exact ⟨htrim, ch, jsTrim_subset text ch hch, hws⟩
    · rw [if_neg h1] at h
      intro c hc
      obtain ⟨hraw, hne⟩ :=
        chunkTextSmartGo_mem text chunkSize overlap _ _ cks h c hc
      exact derive c hraw hne

/-- Witness for `chunkTextSmart_no_empty_chunks` on the one-chunk output for
the text `"a"`. -/
theorem chunkTextSmart_no_empty_chunks_w :
    jsTrim ['a'] ≠ [] ∧ ∃ ch ∈ ['a'], jsWhitespace ch = false :=
  chunkTextSmart_no_empty_chunks ['a'] 1000 200 [['a']] (by decide)
    ['a'] (by decide)

/-- C9: on empty or all-whitespace text, both chunkers return the empty
sequence (no error is signalled). -/
theorem chunkers_whitespace_empty (text : List Char) (chunkSize overlap : Nat)
    (h : ∀ c ∈ text, jsWhitespace c = true) :
    chunkText text chunkSize overlap = some [] ∧
    chunkTextSmart text chunkSize overlap = some [] := by
  have htrim : (jsTrim text).length = 0 := by
    rw [(jsTrim_eq_nil_iff text).mpr h]
    rfl
  constructor
  · unfold chunkText
    rw [if_pos (Or.inr htrim)]
  · unfold chunkTextSmart
    rw [if_pos (Or.inr htrim)]

/-- Witness for `chunkers_whitespace_empty` on the text `" "`. -/
theorem chunkers_whitespace_empty_w :
    chunkText [' '] 1000 200 = some [] ∧
    chunkTextSmart [' '] 1000 200 = some [] :=
  chunkers_whitespace_empty [' '] 1000 200 (by decide)

/-- C10: `validateFileType` accepts a filename exactly when its extension (the
segment after the last dot, lowercased) is `txt` or `md`; in particular no
`pdf`-extension filename is accepted, and the PDF extraction path always fails
with the fixed unavailability message. -/
theorem file_type_policy :
    (∀ filename : List Char, validateFileType filename = true ↔
      (getFileExtension filename = "txt".toList ∨
       getFileExtension filename = "md".toList)) ∧
    (∀ filename : List Char, getFileExtension filename = "pdf".toList →
      validateFileType filename = false) ∧
    (∀ buffer : List UInt8,
      extractTextFromPDF buffer = Except.error pdfUnavailableMessage) := by
  have hiff : ∀ filename : List Char, validateFileType filename = true ↔
      (getFileExtension filename = "txt".toList ∨
       getFileExtension filename = "md".toList) := by
    intro filename
    show (["txt".toList, "md".toList] : List (List Char)).contains
        (getFileExtension filename) = true ↔ _
    simp
  refine ⟨hiff, ?_, fun _ => rfl⟩
  intro filename hpdf
  have hv := hiff filename
  rw [hpdf] at hv
  cases hb : validateFileType filename
  · rfl
  · exact absurd (hv.mp hb) (by decide)

/-- Witness for `file_type_policy`: a `.pdf` filename is rejected and a `.md`
filename is accepted. -/
theorem file_type_policy_w :
    validateFileType ("doc.pdf".toList) = false ∧
    validateFileType ("notes.md".toList) = true :=
  ⟨file_type_policy.2.1 ("doc.pdf".toList) (by decide),
   (file_type_policy.1 ("notes.md".toList)).mpr (Or.inr (by decide))⟩
